import Mathlib

/-!
Verification of the SimpleSQL storage engine against its specification.

The development shallowly embeds the C sources of the repository: the row
codec, the flat row-array table engine (`include/db.h`, `src/table.c`,
and the statement front end / `execute_insert` / `execute_select` in
`db.c`) are translated directly from the source and are the authority
for every claim they decide.  Components whose implementation files are
genuinely not in the tree (`pager.c`, and the B+tree search path
`table_find`/`leaf_node_find` that exists only as declarations in the
current `db.h`) are modelled from the specification; each such
definition carries a doc comment starting with `Modelled from the
spec:`.

Machine integers are modelled as `Nat` with explicit `% 2 ^ 32` where
wraparound matters; byte buffers are `List Nat` / functions `Nat → Nat`
holding byte values.
-/

namespace SimpleSQL

/-! ## Constants (include/db.h, row and page layout)

`size_of_attribute(Row, id) = 4`, `size_of_attribute(Row, username) = 33`,
`size_of_attribute(Row, email) = 256`; offsets accumulate in the order
id → username → email.  `PAGE_SIZE` is 4096 per the spec; `ROWS_PER_PAGE`
and `TABLE_MAX_ROWS` follow the derivation in the constants' definitions
(`db.c`, not in the tree): rows per page is `PAGE_SIZE / ROW_SIZE`, the row
cap is `ROWS_PER_PAGE * TABLE_MAX_PAGES`. -/

def COLUMN_USERNAME_SIZE : Nat := 32

def COLUMN_EMAIL_SIZE : Nat := 255

def ID_SIZE : Nat := 4

def USERNAME_SIZE : Nat := COLUMN_USERNAME_SIZE + 1

def EMAIL_SIZE : Nat := COLUMN_EMAIL_SIZE + 1

def ID_OFFSET : Nat := 0

def USERNAME_OFFSET : Nat := ID_OFFSET + ID_SIZE

def EMAIL_OFFSET : Nat := USERNAME_OFFSET + USERNAME_SIZE

def ROW_SIZE : Nat := ID_SIZE + USERNAME_SIZE + EMAIL_SIZE

def PAGE_SIZE : Nat := 4096

def TABLE_MAX_PAGES : Nat := 100

def ROWS_PER_PAGE : Nat := PAGE_SIZE / ROW_SIZE

def TABLE_MAX_ROWS : Nat := ROWS_PER_PAGE * TABLE_MAX_PAGES

/-! ## Enumerations (include/db.h) -/

/-- `ExecuteResult` from the current `db.h`: the earlier header has only
`EXECUTE_SUCCESS` and `EXECUTE_TABLE_FULL`; the current one adds
`EXECUTE_DUPLICATE_KEY`. -/
inductive ExecuteResult where
  | EXECUTE_SUCCESS
  | EXECUTE_DUPLICATE_KEY
  | EXECUTE_TABLE_FULL
deriving DecidableEq, Repr

/-- `PrepareResult` from `db.h`. -/
inductive PrepareResult where
  | PREPARE_SUCCESS
  | PREPARE_SYNTAX_ERROR
  | PREPARE_NEGATIVE_ID
  | PREPARE_STRING_TOO_LONG
  | PREPARE_UNRECOGNIZED_STATEMENT
deriving DecidableEq, Repr

/-- `StatementType` from `db.h`. -/
inductive StatementType where
  | STATEMENT_INSERT
  | STATEMENT_SELECT
deriving DecidableEq, Repr

/-! ## Row (include/db.h)

A C `Row` is `{ uint32_t id; char username[33]; char email[256]; }`: the
two character arrays always occupy exactly `USERNAME_SIZE` and
`EMAIL_SIZE` bytes.  We model the arrays as byte lists; `row_wf` states
the representation invariant of the C struct. -/

structure Row where
  id : Nat
  username : List Nat
  email : List Nat
deriving DecidableEq, Repr

/-- Representation invariant of a C `Row` value: the id fits `uint32_t`
and the byte arrays have their declared sizes. -/
def row_wf (r : Row) : Prop :=
  r.id < 4294967296 ∧ r.username.length = USERNAME_SIZE ∧ r.email.length = EMAIL_SIZE

/-- A `Statement` from `db.h`: the type tag and the row to insert. -/
structure Statement where
  type : StatementType
  row_to_insert : Row
deriving DecidableEq, Repr

/-! ## Row codec (src/table.c, serialize_row / deserialize_row)

`serialize_row` memcpy-s `id` (4 bytes, little-endian as on the target),
then the 33 username bytes, then the 256 email bytes, at offsets
`ID_OFFSET`, `USERNAME_OFFSET`, `EMAIL_OFFSET`; `deserialize_row` copies
them back out. -/

/-- The four bytes memcpy'd from a `uint32_t`, least significant first. -/
def u32_bytes (n : Nat) : List Nat :=
  [n % 256, n / 256 % 256, n / 65536 % 256, n / 16777216 % 256]

/-- The `uint32_t` reassembled from four bytes, least significant first. -/
def u32_of_bytes (bs : List Nat) : Nat :=
  bs.getD 0 0 + 256 * bs.getD 1 0 + 65536 * bs.getD 2 0 + 16777216 * bs.getD 3 0

/-- `serialize_row` (src/table.c:18): id bytes, then username, then email,
written contiguously into the destination slot. -/
def serialize_row (source : Row) : List Nat :=
  u32_bytes source.id ++ source.username ++ source.email

/-- `deserialize_row` (src/table.c:24): read the three fields back from
their fixed offsets. -/
def deserialize_row (source : List Nat) : Row :=
  { id := u32_of_bytes ((source.drop ID_OFFSET).take ID_SIZE)
  , username := (source.drop USERNAME_OFFSET).take USERNAME_SIZE
  , email := (source.drop EMAIL_OFFSET).take EMAIL_SIZE }

theorem u32_bytes_length (n : Nat) : (u32_bytes n).length = 4 := rfl

theorem u32_of_bytes_u32_bytes (n : Nat) (h : n < 4294967296) :
    u32_of_bytes (u32_bytes n) = n := by
  simp only [u32_bytes, u32_of_bytes, List.getD_cons_zero, List.getD_cons_succ]
  omega

/-- The row codec round-trips on well-formed rows (shared helper). -/
theorem deserialize_serialize_row (r : Row) (h : row_wf r) :
    deserialize_row (serialize_row r) = r := by
  cases r with
  | mk id username email =>
    obtain ⟨hid, hu, he⟩ := h
    unfold deserialize_row serialize_row
    dsimp only
    congr 1
    · -- id field
      rw [show ID_OFFSET = 0 from rfl, List.drop_zero, List.append_assoc,
        List.take_left' (show (u32_bytes id).length = ID_SIZE from rfl)]
      exact u32_of_bytes_u32_bytes id hid
    · -- username field
      rw [List.append_assoc,
        List.drop_left' (show (u32_bytes id).length = USERNAME_OFFSET from rfl),
        List.take_left' hu]
    · -- email field
      rw [List.drop_left' (show (u32_bytes id ++ username).length = EMAIL_OFFSET by
            simp only [List.length_append, u32_bytes_length, hu]; rfl),
        List.take_of_length_le (le_of_eq he)]

/-- C2: for every valid row `r` (uint32 id, username and email at their
fixed sizes), `deserialize_row (serialize_row r) = r`: the row codec
round-trips exactly. -/
theorem C2_deserialize_serialize_roundtrip (r : Row) (h : row_wf r) :
    deserialize_row (serialize_row r) = r :=
  deserialize_serialize_row r h

/-- A concrete valid row used by witnesses. -/
def sample_row : Row :=
  { id := 7, username := List.replicate 33 65, email := List.replicate 256 66 }

set_option maxRecDepth 4000 in
theorem sample_row_wf : row_wf sample_row := by
  unfold row_wf
  decide

theorem C2_deserialize_serialize_roundtrip_witness :
    row_wf sample_row ∧ deserialize_row (serialize_row sample_row) = sample_row :=
  ⟨sample_row_wf, C2_deserialize_serialize_roundtrip sample_row sample_row_wf⟩

/-! ## Statement preparation (db.c:44, prepare_statement)

`prepare_statement` recognizes `insert` by `strncmp(buffer, "insert", 6)`
and parses it with `sscanf(buffer, "insert %d %s %s", &id, username,
email)`; it recognizes `select` by exact `strcmp`.  The `sscanf` is
modelled at the character level: `%d` skips whitespace and reads an
optional sign followed by decimal digits into an `int` whose value is
stored in the `uint32_t` id (two's-complement wraparound); `%s` skips
whitespace and reads a maximal nonempty run of non-whitespace
characters.  Fewer than three conversions yields
`PREPARE_SYNTAX_ERROR`.  (`int` overflow on very long digit strings is
not modelled.) -/

/-- C whitespace as `sscanf` skips it. -/
def is_space (c : Char) : Bool :=
  c = ' ' || c = '\t' || c = '\n' || c = '\r'

/-- Consume leading decimal digits, accumulating their value. -/
def scan_digits : List Char → Nat → Nat × List Char
  | [], acc => (acc, [])
  | c :: rest, acc =>
      if c.isDigit then scan_digits rest (acc * 10 + (c.toNat - 48))
      else (acc, c :: rest)

/-- The `%d` conversion: skip whitespace, optional sign, then at least
one digit; `none` on a matching failure. -/
def scan_int (s : List Char) : Option (Int × List Char) :=
  let s1 := s.dropWhile is_space
  let signed : Int × List Char :=
    match s1 with
    | '-' :: rest => (-1, rest)
    | '+' :: rest => (1, rest)
    | _ => (1, s1)
  match signed.2 with
  | [] => none
  | c :: _ =>
      if c.isDigit then
        let p := scan_digits signed.2 0
        some (signed.1 * (p.1 : Int), p.2)
      else none

/-- The `%s` conversion: skip whitespace, then a maximal nonempty run of
non-whitespace characters; `none` at end of input. -/
def scan_word (s : List Char) : Option (List Char × List Char) :=
  let s1 := s.dropWhile is_space
  let w := s1.takeWhile (fun c => !is_space c)
  if w.isEmpty then none else some (w, s1.dropWhile (fun c => !is_space c))

/-- `prepare_statement` (db.c:44).  Returns the `PrepareResult` and the
filled statement (`none` when nothing meaningful was stored).  For
`select` the row is unused (zeroed here; uninitialized in C). -/
def prepare_statement (input : List Char) : PrepareResult × Option Statement :=
  if "insert".toList.isPrefixOf input then
    match scan_int (input.drop 6) with
    | none => (PrepareResult.PREPARE_SYNTAX_ERROR, none)
    | some (v, r1) =>
        match scan_word r1 with
        | none => (PrepareResult.PREPARE_SYNTAX_ERROR, none)
        | some (u, r2) =>
            match scan_word r2 with
            | none => (PrepareResult.PREPARE_SYNTAX_ERROR, none)
            | some (e, _) =>
                (PrepareResult.PREPARE_SUCCESS,
                  some { type := StatementType.STATEMENT_INSERT
                       , row_to_insert :=
                          { id := (v.emod 4294967296).toNat
                          , username := u.map Char.toNat
                          , email := e.map Char.toNat } })
  else if input = "select".toList then
    (PrepareResult.PREPARE_SUCCESS,
      some { type := StatementType.STATEMENT_SELECT
           , row_to_insert := { id := 0, username := [], email := [] } })
  else
    (PrepareResult.PREPARE_UNRECOGNIZED_STATEMENT, none)

/-- C5 (code bug): `prepare_statement` performs no field validation.  A
negative id (`insert -1 user email`) is accepted with `PREPARE_SUCCESS`
and wraps to `4294967295` in the `uint32_t` id rather than returning
`PREPARE_NEGATIVE_ID`; a 33-character username (one past
`COLUMN_USERNAME_SIZE`) is likewise accepted with `PREPARE_SUCCESS`
rather than `PREPARE_STRING_TOO_LONG`, although `PrepareResult` declares
both rejection codes. -/
theorem C5_prepare_accepts_malformed_fields :
    (prepare_statement "insert -1 user email".toList).1 =
        PrepareResult.PREPARE_SUCCESS ∧
      (prepare_statement "insert -1 user email".toList).2.map
          (fun st => st.row_to_insert.id) = some 4294967295 ∧
      (prepare_statement
            ("insert 1 ".toList ++ List.replicate 33 'a' ++ " b".toList)).1 =
        PrepareResult.PREPARE_SUCCESS ∧
      COLUMN_USERNAME_SIZE < 33 := by
  refine ⟨?_, ?_, ?_, by decide⟩ <;> decide

/-! ## Flat row-array engine (include/db.h, src/table.c, db.c front end)

The table stores serialized rows contiguously: row `r` lives in page
`r / ROWS_PER_PAGE` at byte offset `(r % ROWS_PER_PAGE) * ROW_SIZE`
(`row_slot`, src/table.c:30).  Pages are modelled as a byte map
`Nat → Nat → Nat` (page number → byte offset → byte value). -/

namespace Flat

/-- The page geometry computed by `row_slot` (src/table.c:30): the page
number `row_num / ROWS_PER_PAGE` and the byte offset
`(row_num % ROWS_PER_PAGE) * ROW_SIZE` of the returned pointer inside
that page. -/
def row_slot (row_num : Nat) : Nat × Nat :=
  (row_num / ROWS_PER_PAGE, row_num % ROWS_PER_PAGE * ROW_SIZE)

/-- The in-memory pages: page number → byte offset → byte value. -/
def Pages : Type := Nat → Nat → Nat

/-- Write one byte at offset `off` of page `p`. -/
def write_byte (pages : Pages) (p off b : Nat) : Pages :=
  fun q o => if q = p ∧ o = off then b else pages q o

/-- Write a byte string starting at offset `off` of page `p` (the
`memcpy` calls inside `serialize_row`). -/
def write_bytes (pages : Pages) (p off : Nat) : List Nat → Pages
  | [] => pages
  | b :: bs => write_bytes (write_byte pages p off b) p (off + 1) bs

/-- Read `n` bytes starting at offset `off` of page `p`. -/
def read_bytes (pages : Pages) (p off n : Nat) : List Nat :=
  (List.range n).map (fun k => pages p (off + k))

/-- The `Table` of the flat engine: a row count and the pages holding the
serialized rows (the page cache contents). -/
structure Table where
  num_rows : Nat
  pages : Pages

/-- `new_table`: an empty table, no rows, all page bytes zero. -/
def new_table : Table :=
  { num_rows := 0, pages := fun _ _ => 0 }

/-- `execute_insert` (db.c:64): reject when `num_rows` has reached
`TABLE_MAX_ROWS`, otherwise serialize the row into
`row_slot(table, table->num_rows)` and increment the row count. -/
def execute_insert (statement : Statement) (table : Table) : ExecuteResult × Table :=
  if TABLE_MAX_ROWS ≤ table.num_rows then
    (ExecuteResult.EXECUTE_TABLE_FULL, table)
  else
    (ExecuteResult.EXECUTE_SUCCESS,
      { num_rows := table.num_rows + 1
      , pages := write_bytes table.pages (row_slot table.num_rows).1
          (row_slot table.num_rows).2 (serialize_row statement.row_to_insert) })

/-- The bytes of row slot `row_num` (what `row_slot` points at). -/
def read_row_bytes (table : Table) (row_num : Nat) : List Nat :=
  read_bytes table.pages (row_slot row_num).1 (row_slot row_num).2 ROW_SIZE

/-- The row read back from slot `row_num` (`deserialize_row(row_slot(table, i))`). -/
def read_row (table : Table) (row_num : Nat) : Row :=
  deserialize_row (read_row_bytes table row_num)

/-- `execute_select` (db.c:77): deserialize and emit rows `0 .. num_rows-1`
in order; always returns `EXECUTE_SUCCESS`.  The returned list models the
printed output. -/
def execute_select (table : Table) : ExecuteResult × List Row :=
  (ExecuteResult.EXECUTE_SUCCESS, (List.range table.num_rows).map (read_row table))

/-- `execute_insert` wrapped as the front end calls it for an insert
statement. -/
def insert_row (table : Table) (r : Row) : ExecuteResult × Table :=
  execute_insert { type := StatementType.STATEMENT_INSERT, row_to_insert := r } table

/-- The table after inserting the rows of `rs` one at a time (a failed
insert leaves the table unchanged, as `execute_insert` returns it as is). -/
def insert_all (table : Table) (rs : List Row) : Table :=
  rs.foldl (fun t r => (insert_row t r).2) table

/-- Every insert in the sequence returns `EXECUTE_SUCCESS`. -/
def all_inserts_succeed : Table → List Row → Prop
  | _, [] => True
  | t, r :: rs =>
      (insert_row t r).1 = ExecuteResult.EXECUTE_SUCCESS ∧
        all_inserts_succeed (insert_row t r).2 rs

/-! ### Pager and db_open (src/table.c:3; pager.c is not in the tree) -/

/-- The error kind of the page store per the spec (§7): `IOError`. -/
inductive IOError where
  | corrupt_file_length
deriving DecidableEq, Repr

/-- The `Pager` handle: the recorded backing-file length and the file's
byte contents. -/
structure Pager where
  file_length : Nat
  file_contents : Nat → Nat

/-- Modelled from the spec: `pager_open` (pager.c, not in the tree)
"opens (creating if absent) the backing file; records file length; fails
if file length is not a whole multiple of the page size (corruption
signal)".  The input is `none` for an absent file (created empty) or
`some (length, contents)` for an existing file. -/
def pager_open : Option (Nat × (Nat → Nat)) → Except IOError Pager
  | none => Except.ok { file_length := 0, file_contents := fun _ => 0 }
  | some (len, contents) =>
      if len % PAGE_SIZE = 0 then
        Except.ok { file_length := len, file_contents := contents }
      else
        Except.error IOError.corrupt_file_length

/-- `db_open` (src/table.c:3): open the pager and set
`num_rows = file_length / ROW_SIZE`.  The page contents follow the
spec's `get_page` contract (pager.c is not in the tree): bytes within
the file extent come from the file, pages past it are zeroed buffers. -/
def db_open (file : Option (Nat × (Nat → Nat))) : Except IOError Table :=
  (pager_open file).map (fun pager =>
    { num_rows := pager.file_length / ROW_SIZE
    , pages := fun p o =>
        if p * PAGE_SIZE + o < pager.file_length then
          pager.file_contents (p * PAGE_SIZE + o)
        else 0 })

/-! ### Slot geometry (claim C9) -/

theorem ROWS_PER_PAGE_eq : ROWS_PER_PAGE = 13 := rfl

theorem ROW_SIZE_eq : ROW_SIZE = 293 := rfl

theorem PAGE_SIZE_eq : PAGE_SIZE = 4096 := rfl

theorem TABLE_MAX_ROWS_eq : TABLE_MAX_ROWS = 1300 := rfl

theorem row_slot_fits (r : Nat) : (row_slot r).2 + ROW_SIZE ≤ PAGE_SIZE := by
  simp only [row_slot, ROWS_PER_PAGE_eq, ROW_SIZE_eq, PAGE_SIZE_eq]
  omega

/-- Distinct row numbers land on different pages, or on the same page in
byte intervals separated by at least `ROW_SIZE`. -/
theorem row_slot_disjoint_helper (r1 r2 : Nat) (h : r1 ≠ r2) :
    (row_slot r1).1 ≠ (row_slot r2).1 ∨
      ((row_slot r1).1 = (row_slot r2).1 ∧
        ((row_slot r1).2 + ROW_SIZE ≤ (row_slot r2).2 ∨
          (row_slot r2).2 + ROW_SIZE ≤ (row_slot r1).2)) := by
  simp only [row_slot, ROWS_PER_PAGE_eq, ROW_SIZE_eq]
  omega

/-- C9: `row_slot` places row `r` in page `r / ROWS_PER_PAGE` at byte
offset `(r % ROWS_PER_PAGE) * ROW_SIZE`; the `ROW_SIZE` bytes starting
there fit inside the page (a row never spans two pages), and distinct
row numbers occupy disjoint byte regions (different pages, or same page
with the two `ROW_SIZE`-byte intervals disjoint). -/
theorem C9_row_slot_geometry :
    (∀ r : Nat, (row_slot r).1 = r / ROWS_PER_PAGE ∧
        (row_slot r).2 = r % ROWS_PER_PAGE * ROW_SIZE ∧
        (row_slot r).2 + ROW_SIZE ≤ PAGE_SIZE) ∧
    (∀ r1 r2 : Nat, r1 ≠ r2 →
      (row_slot r1).1 ≠ (row_slot r2).1 ∨
        ((row_slot r1).1 = (row_slot r2).1 ∧
          ((row_slot r1).2 + ROW_SIZE ≤ (row_slot r2).2 ∨
            (row_slot r2).2 + ROW_SIZE ≤ (row_slot r1).2))) :=
  ⟨fun r => ⟨rfl, rfl, row_slot_fits r⟩, row_slot_disjoint_helper⟩

theorem C9_row_slot_geometry_witness :
    (0 : Nat) ≠ 13 ∧
      ((row_slot 0).1 ≠ (row_slot 13).1 ∨
        ((row_slot 0).1 = (row_slot 13).1 ∧
          ((row_slot 0).2 + ROW_SIZE ≤ (row_slot 13).2 ∨
            (row_slot 13).2 + ROW_SIZE ≤ (row_slot 0).2))) :=
  ⟨by decide, C9_row_slot_geometry.2 0 13 (by decide)⟩

/-! ### Frame property of insert (claim C10) -/

theorem write_byte_outside (pages : Pages) (p off b q o : Nat)
    (h : q ≠ p ∨ o ≠ off) : write_byte pages p off b q o = pages q o := by
  unfold write_byte
  rw [if_neg]
  rintro ⟨hq, ho⟩
  rcases h with h | h <;> exact h (by omega)

theorem write_bytes_outside (p q o : Nat) :
    ∀ (bs : List Nat) (pages : Pages) (off : Nat),
      (q ≠ p ∨ o < off ∨ off + bs.length ≤ o) →
      write_bytes pages p off bs q o = pages q o := by
  intro bs
  induction bs with
  | nil => intro pages off _; rfl
  | cons b bs ih =>
      intro pages off h
      show write_bytes (write_byte pages p off b) p (off + 1) bs q o = pages q o
      rw [ih (write_byte pages p off b) (off + 1)
          (by rcases h with h | h | h
              · exact Or.inl h
              · exact Or.inr (Or.inl (by omega))
              · exact Or.inr (Or.inr (by simp at h; omega)))]
      exact write_byte_outside pages p off b q o
        (by rcases h with h | h | h
            · exact Or.inl h
            · exact Or.inr (by omega)
            · exact Or.inr (by simp at h; omega))

theorem serialize_row_length (r : Row) (h : row_wf r) :
    (serialize_row r).length = ROW_SIZE := by
  unfold serialize_row
  simp only [List.length_append, u32_bytes_length, h.2.1, h.2.2]
  rfl

/-- A successful `execute_insert` increments `num_rows` by one and
leaves the bytes of every earlier slot unchanged (shared helper). -/
theorem execute_insert_frame (statement : Statement) (table : Table)
    (hwf : row_wf statement.row_to_insert)
    (hs : (execute_insert statement table).1 = ExecuteResult.EXECUTE_SUCCESS) :
    (execute_insert statement table).2.num_rows = table.num_rows + 1 ∧
      ∀ i, i < table.num_rows →
        read_row_bytes (execute_insert statement table).2 i = read_row_bytes table i := by
  unfold execute_insert at hs ⊢
  by_cases hfull : TABLE_MAX_ROWS ≤ table.num_rows
  · rw [if_pos hfull] at hs
    exact absurd hs (by simp)
  · rw [if_neg hfull] at hs ⊢
    refine ⟨rfl, fun i hi => ?_⟩
    unfold read_row_bytes read_bytes
    refine List.map_congr_left (fun k hk => ?_)
    have hk' : k < ROW_SIZE := List.mem_range.mp hk
    have hlen := serialize_row_length statement.row_to_insert hwf
    apply write_bytes_outside
    rcases row_slot_disjoint_helper i table.num_rows (Nat.ne_of_lt hi) with hp | ⟨_, hd⟩
    · exact Or.inl hp
    · rcases hd with hd | hd
      · exact Or.inr (Or.inl (by omega))
      · exact Or.inr (Or.inr (by omega))

/-- C10: a successful `execute_insert` increments `num_rows` by exactly
one and only writes the slot of the old row count: the bytes of every
slot with index below the old row count are unchanged.  The row being
inserted is a C `Row` value, hence well-formed. -/
theorem C10_insert_frame (statement : Statement) (table : Table)
    (hwf : row_wf statement.row_to_insert)
    (hs : (execute_insert statement table).1 = ExecuteResult.EXECUTE_SUCCESS) :
    (execute_insert statement table).2.num_rows = table.num_rows + 1 ∧
      ∀ i, i < table.num_rows →
        read_row_bytes (execute_insert statement table).2 i = read_row_bytes table i :=
  execute_insert_frame statement table hwf hs

theorem C10_insert_frame_witness :
    row_wf sample_row ∧
      (execute_insert { type := StatementType.STATEMENT_INSERT, row_to_insert := sample_row }
          { num_rows := 1, pages := fun _ _ => 0 }).1 = ExecuteResult.EXECUTE_SUCCESS ∧
      ((execute_insert { type := StatementType.STATEMENT_INSERT, row_to_insert := sample_row }
            { num_rows := 1, pages := fun _ _ => 0 }).2.num_rows = 1 + 1 ∧
        ∀ i, i < (1 : Nat) →
          read_row_bytes (execute_insert
              { type := StatementType.STATEMENT_INSERT, row_to_insert := sample_row }
              { num_rows := 1, pages := fun _ _ => 0 }).2 i =
            read_row_bytes { num_rows := 1, pages := fun _ _ => 0 } i) := by
  have hwf : row_wf sample_row := sample_row_wf
  have hs : (execute_insert { type := StatementType.STATEMENT_INSERT, row_to_insert := sample_row }
      { num_rows := 1, pages := fun _ _ => 0 }).1 = ExecuteResult.EXECUTE_SUCCESS := by
    unfold execute_insert
    rw [if_neg (show ¬(TABLE_MAX_ROWS ≤ 1) by rw [TABLE_MAX_ROWS_eq]; omega)]
  exact ⟨hwf, hs, C10_insert_frame _ _ hwf hs⟩

/-! ### Capacity boundary (claim C4) -/

theorem insert_row_success (t : Table) (r : Row) (h : t.num_rows < TABLE_MAX_ROWS) :
    (insert_row t r).1 = ExecuteResult.EXECUTE_SUCCESS ∧
      (insert_row t r).2.num_rows = t.num_rows + 1 := by
  unfold insert_row execute_insert
  rw [if_neg (by omega)]
  exact ⟨rfl, rfl⟩

theorem insert_all_succeeds (rs : List Row) : ∀ t : Table,
    t.num_rows + rs.length ≤ TABLE_MAX_ROWS →
    all_inserts_succeed t rs ∧ (insert_all t rs).num_rows = t.num_rows + rs.length := by
  induction rs with
  | nil =>
      intro t _
      exact ⟨trivial, by simp [insert_all]⟩
  | cons r rs ih =>
      intro t h
      rw [List.length_cons] at h
      have hlt : t.num_rows < TABLE_MAX_ROWS := by omega
      obtain ⟨h1, h2⟩ := insert_row_success t r hlt
      obtain ⟨h3, h4⟩ := ih (insert_row t r).2 (by omega)
      refine ⟨?_, ?_⟩
      · simp only [all_inserts_succeed]
        exact ⟨h1, h3⟩
      · show ((r :: rs).foldl (fun t r => (insert_row t r).2) t).num_rows = _
        rw [List.foldl_cons]
        have : (rs.foldl (fun t r => (insert_row t r).2) (insert_row t r).2).num_rows =
            (insert_row t r).2.num_rows + rs.length := h4
        rw [this, h2]
        simp only [List.length_cons]
        omega

/-- C4: starting from an empty table, inserting `TABLE_MAX_ROWS` rows one
at a time succeeds at every step; the next insert returns
`EXECUTE_TABLE_FULL`; and any insert that returns `EXECUTE_TABLE_FULL`
leaves the table (row count and stored pages) unchanged. -/
theorem C4_capacity_boundary (rs : List Row) (r : Row) (h : rs.length = TABLE_MAX_ROWS) :
    all_inserts_succeed new_table rs ∧
      insert_row (insert_all new_table rs) r =
        (ExecuteResult.EXECUTE_TABLE_FULL, insert_all new_table rs) ∧
      ∀ (t : Table) (r' : Row),
        (insert_row t r').1 = ExecuteResult.EXECUTE_TABLE_FULL → (insert_row t r').2 = t := by
  obtain ⟨hsucc, hnum⟩ := insert_all_succeeds rs new_table (by
    show new_table.num_rows + rs.length ≤ TABLE_MAX_ROWS
    rw [h]
    show 0 + TABLE_MAX_ROWS ≤ TABLE_MAX_ROWS
    omega)
  refine ⟨hsucc, ?_, ?_⟩
  · unfold insert_row execute_insert
    rw [if_pos (by rw [hnum, h]; show TABLE_MAX_ROWS ≤ 0 + TABLE_MAX_ROWS; omega)]
  · intro t r' hres
    unfold insert_row execute_insert at hres ⊢
    by_cases hf : TABLE_MAX_ROWS ≤ t.num_rows
    · rw [if_pos hf]
    · rw [if_neg hf] at hres
      exact absurd hres (by simp)

theorem C4_capacity_boundary_witness :
    (List.replicate TABLE_MAX_ROWS sample_row).length = TABLE_MAX_ROWS ∧
      (all_inserts_succeed new_table (List.replicate TABLE_MAX_ROWS sample_row) ∧
        insert_row (insert_all new_table (List.replicate TABLE_MAX_ROWS sample_row)) sample_row =
          (ExecuteResult.EXECUTE_TABLE_FULL,
            insert_all new_table (List.replicate TABLE_MAX_ROWS sample_row)) ∧
        ∀ (t : Table) (r' : Row),
          (insert_row t r').1 = ExecuteResult.EXECUTE_TABLE_FULL → (insert_row t r').2 = t) :=
  ⟨List.length_replicate TABLE_MAX_ROWS sample_row,
    C4_capacity_boundary (List.replicate TABLE_MAX_ROWS sample_row) sample_row
      (List.length_replicate TABLE_MAX_ROWS sample_row)⟩

/-! ### Opening a table (claims C7 and C8) -/

/-- C7: opening a table from a freshly created empty file (absent, hence
created, or existing with length zero) and scanning immediately yields
zero rows, and the scan returns `EXECUTE_SUCCESS`. -/
theorem C7_empty_file_scan_zero_rows :
    (db_open none).map execute_select =
        Except.ok (ExecuteResult.EXECUTE_SUCCESS, ([] : List Row)) ∧
      ∀ contents : Nat → Nat,
        (db_open (some (0, contents))).map execute_select =
          Except.ok (ExecuteResult.EXECUTE_SUCCESS, ([] : List Row)) := by
  refine ⟨rfl, fun contents => ?_⟩
  simp only [db_open, pager_open]
  rw [if_pos (show (0 : Nat) % PAGE_SIZE = 0 from rfl)]
  simp [Except.map, execute_select, Nat.zero_div]

/-- C8: `pager_open` records the file length of the backing file,
fails with an `IOError` exactly when an existing file's length is not a
whole multiple of `PAGE_SIZE`, and creates absent files (empty pager,
length 0). -/
theorem C8_pager_open_records_and_validates :
    (∀ (len : Nat) (contents : Nat → Nat), len % PAGE_SIZE ≠ 0 →
        pager_open (some (len, contents)) = Except.error IOError.corrupt_file_length) ∧
      (∀ (len : Nat) (contents : Nat → Nat), len % PAGE_SIZE = 0 →
        pager_open (some (len, contents)) =
          Except.ok { file_length := len, file_contents := contents }) ∧
      pager_open none = Except.ok { file_length := 0, file_contents := fun _ => 0 } := by
  refine ⟨fun len c h => ?_, fun len c h => ?_, rfl⟩
  · simp only [pager_open]
    rw [if_neg h]
  · simp only [pager_open]
    rw [if_pos h]

theorem C8_pager_open_records_and_validates_witness :
    ((1 : Nat) % PAGE_SIZE ≠ 0 ∧
        pager_open (some (1, fun _ => 0)) = Except.error IOError.corrupt_file_length) ∧
      ((4096 : Nat) % PAGE_SIZE = 0 ∧
        pager_open (some (4096, fun _ => 0)) =
          Except.ok { file_length := 4096, file_contents := fun _ => 0 }) :=
  ⟨⟨by decide, C8_pager_open_records_and_validates.1 1 (fun _ => 0) (by decide)⟩,
    ⟨by decide, C8_pager_open_records_and_validates.2.1 4096 (fun _ => 0) (by decide)⟩⟩

/-! ### Reading back stored rows (used to trace claims C1 and C3 on the
present engine) -/

theorem read_bytes_succ (pages : Pages) (p off n : Nat) :
    read_bytes pages p off (n + 1) = pages p off :: read_bytes pages p (off + 1) n := by
  unfold read_bytes
  rw [List.range_succ_eq_map, List.map_cons, List.map_map, Nat.add_zero]
  congr 1
  apply List.map_congr_left
  intro k _
  simp only [Function.comp_apply]
  congr 1
  omega

/-- Reading back exactly the bytes just written returns them. -/
theorem write_bytes_read (p : Nat) : ∀ (bs : List Nat) (pages : Pages) (off : Nat),
    read_bytes (write_bytes pages p off bs) p off bs.length = bs := by
  intro bs
  induction bs with
  | nil => intro pages off; rfl
  | cons b bs ih =>
      intro pages off
      rw [List.length_cons, read_bytes_succ]
      congr 1
      · show write_bytes (write_byte pages p off b) p (off + 1) bs p off = b
        rw [write_bytes_outside p p off bs (write_byte pages p off b) (off + 1)
          (Or.inr (Or.inl (by omega)))]
        unfold write_byte
        rw [if_pos ⟨rfl, rfl⟩]
      · exact ih (write_byte pages p off b) (off + 1)

/-- The row just inserted is read back unchanged from its slot. -/
theorem execute_insert_read_back (statement : Statement) (table : Table)
    (hwf : row_wf statement.row_to_insert) (h : table.num_rows < TABLE_MAX_ROWS) :
    read_row (execute_insert statement table).2 table.num_rows =
      statement.row_to_insert := by
  unfold execute_insert
  rw [if_neg (by omega)]
  unfold read_row read_row_bytes
  dsimp only
  rw [show ROW_SIZE = (serialize_row statement.row_to_insert).length from
    (serialize_row_length _ hwf).symm, write_bytes_read]
  exact deserialize_serialize_row _ hwf

theorem insert_row_read_back (t : Table) (r : Row) (hwf : row_wf r)
    (h : t.num_rows < TABLE_MAX_ROWS) :
    read_row (insert_row t r).2 t.num_rows = r := by
  unfold insert_row
  exact execute_insert_read_back _ t hwf h

/-- Rows already stored are read back unchanged after a further insert. -/
theorem insert_row_read_frame (t : Table) (r : Row) (i : Nat) (hwf : row_wf r)
    (hi : i < t.num_rows) (hcap : t.num_rows < TABLE_MAX_ROWS) :
    read_row (insert_row t r).2 i = read_row t i := by
  have hs : (insert_row t r).1 = ExecuteResult.EXECUTE_SUCCESS :=
    (insert_row_success t r hcap).1
  unfold insert_row at hs ⊢
  have hframe := (execute_insert_frame
    { type := StatementType.STATEMENT_INSERT, row_to_insert := r } t hwf hs).2 i hi
  unfold read_row
  rw [hframe]

/-- A well-formed row carrying key `n` and fields depending on `n`. -/
def scenario_row (n : Nat) : Row :=
  { id := n, username := List.replicate 33 (110 + n), email := List.replicate 256 (101 + n) }

set_option maxRecDepth 4000 in
theorem scenario_row_wf (n : Nat) (h : n < 4294967296) : row_wf (scenario_row n) := by
  unfold row_wf scenario_row
  refine ⟨h, ?_, ?_⟩ <;>
    simp [USERNAME_SIZE, EMAIL_SIZE, COLUMN_USERNAME_SIZE, COLUMN_EMAIL_SIZE]

set_option maxRecDepth 4000 in
/-- C1 (code bug): the `execute_insert`/`execute_select` present in the
sources (db.c:64 and db.c:77) append each row at slot `num_rows` with no
key comparison and scan slots `0..num_rows-1` in insertion order.
Inserting rows with keys 3, 1, 2 into an empty table succeeds at every
step, and the subsequent full scan yields the rows in insertion order —
keys `[3, 1, 2]` (each with its original field values), not the strictly
increasing key order `[1, 2, 3]` that the claim and the spec's order
invariant state. -/
theorem C1_flat_scan_insertion_order :
    (insert_row new_table (scenario_row 3)).1 = ExecuteResult.EXECUTE_SUCCESS ∧
      (insert_row (insert_row new_table (scenario_row 3)).2 (scenario_row 1)).1 =
        ExecuteResult.EXECUTE_SUCCESS ∧
      (insert_row (insert_row (insert_row new_table (scenario_row 3)).2
          (scenario_row 1)).2 (scenario_row 2)).1 = ExecuteResult.EXECUTE_SUCCESS ∧
      (execute_select (insert_row (insert_row (insert_row new_table
          (scenario_row 3)).2 (scenario_row 1)).2 (scenario_row 2)).2).2 =
        [scenario_row 3, scenario_row 1, scenario_row 2] ∧
      ((execute_select (insert_row (insert_row (insert_row new_table
          (scenario_row 3)).2 (scenario_row 1)).2 (scenario_row 2)).2).2).map
        Row.id = [3, 1, 2] ∧
      ([3, 1, 2] : List Nat) ≠ [1, 2, 3] := by
  have hw1 := scenario_row_wf 1 (by norm_num)
  have hw2 := scenario_row_wf 2 (by norm_num)
  have hw3 := scenario_row_wf 3 (by norm_num)
  have hmax := TABLE_MAX_ROWS_eq
  have h0 : new_table.num_rows = 0 := rfl
  have s1 := insert_row_success new_table (scenario_row 3) (by omega)
  set t1 := (insert_row new_table (scenario_row 3)).2 with ht1
  have hn1 : t1.num_rows = 1 := by rw [ht1, s1.2, h0]
  have s2 := insert_row_success t1 (scenario_row 1) (by omega)
  set t2 := (insert_row t1 (scenario_row 1)).2 with ht2
  have hn2 : t2.num_rows = 2 := by rw [ht2, s2.2, hn1]
  have s3 := insert_row_success t2 (scenario_row 2) (by omega)
  set t3 := (insert_row t2 (scenario_row 2)).2 with ht3
  have hn3 : t3.num_rows = 3 := by rw [ht3, s3.2, hn2]
  have r2 : read_row t3 2 = scenario_row 2 := by
    rw [ht3, ← hn2]
    exact insert_row_read_back t2 (scenario_row 2) hw2 (by omega)
  have r1 : read_row t3 1 = scenario_row 1 := by
    rw [ht3, insert_row_read_frame t2 (scenario_row 2) 1 hw2 (by omega) (by omega),
      ht2, ← hn1]
    exact insert_row_read_back t1 (scenario_row 1) hw1 (by omega)
  have r0 : read_row t3 0 = scenario_row 3 := by
    rw [ht3, insert_row_read_frame t2 (scenario_row 2) 0 hw2 (by omega) (by omega),
      ht2, insert_row_read_frame t1 (scenario_row 1) 0 hw1 (by omega) (by omega),
      ht1, ← h0]
    exact insert_row_read_back new_table (scenario_row 3) hw3 (by omega)
  have hsel : (execute_select t3).2 = [read_row t3 0, read_row t3 1, read_row t3 2] := by
    unfold execute_select
    rw [hn3]
    rfl
  refine ⟨s1.1, s2.1, s3.1, ?_, ?_, by decide⟩
  · rw [hsel, r0, r1, r2]
  · rw [hsel, r0, r1, r2]
    simp [scenario_row]

set_option maxRecDepth 4000 in
/-- C3 (code bug): the `execute_insert` present in the sources (db.c:64)
performs no duplicate-key check and can only return `EXECUTE_SUCCESS` or
`EXECUTE_TABLE_FULL`.  After inserting the row with key 7 once, a second
insert of the same key again returns `EXECUTE_SUCCESS` (never
`EXECUTE_DUPLICATE_KEY`, although the current `db.h` declares it), and
the subsequent full scan shows the key twice. -/
theorem C3_flat_duplicate_insert_succeeds :
    (insert_row new_table sample_row).1 = ExecuteResult.EXECUTE_SUCCESS ∧
      (insert_row (insert_row new_table sample_row).2 sample_row).1 =
        ExecuteResult.EXECUTE_SUCCESS ∧
      (insert_row (insert_row new_table sample_row).2 sample_row).1 ≠
        ExecuteResult.EXECUTE_DUPLICATE_KEY ∧
      ((execute_select (insert_row (insert_row new_table sample_row).2
          sample_row).2).2).map Row.id = [7, 7] ∧
      (((execute_select (insert_row (insert_row new_table sample_row).2
          sample_row).2).2).map Row.id).count 7 = 2 := by
  have hw := sample_row_wf
  have hmax := TABLE_MAX_ROWS_eq
  have h0 : new_table.num_rows = 0 := rfl
  have s1 := insert_row_success new_table sample_row (by omega)
  set t1 := (insert_row new_table sample_row).2 with ht1
  have hn1 : t1.num_rows = 1 := by rw [ht1, s1.2, h0]
  have s2 := insert_row_success t1 sample_row (by omega)
  set t2 := (insert_row t1 sample_row).2 with ht2
  have hn2 : t2.num_rows = 2 := by rw [ht2, s2.2, hn1]
  have r1 : read_row t2 1 = sample_row := by
    rw [ht2, ← hn1]
    exact insert_row_read_back t1 sample_row hw (by omega)
  have r0 : read_row t2 0 = sample_row := by
    rw [ht2, insert_row_read_frame t1 sample_row 0 hw (by omega) (by omega),
      ht1, ← h0]
    exact insert_row_read_back new_table sample_row hw (by omega)
  have hsel : (execute_select t2).2 = [read_row t2 0, read_row t2 1] := by
    unfold execute_select
    rw [hn2]
    rfl
  have hmap : ((execute_select t2).2).map Row.id = [7, 7] := by
    rw [hsel, r0, r1]
    simp [sample_row]
  refine ⟨s1.1, s2.1, ?_, hmap, ?_⟩
  · rw [s2.1]
    simp
  · rw [hmap]
    decide

end Flat

/-! ## List auxiliaries for the B+tree development -/

/-- The last element of a key list, 0 when empty. -/
def last0 : List Nat → Nat
  | [] => 0
  | [a] => a
  | _ :: b :: t => last0 (b :: t)

theorem last0_cons_ne (x : Nat) (t : List Nat) (h : t ≠ []) :
    last0 (x :: t) = last0 t := by
  cases t with
  | nil => exact absurd rfl h
  | cons b t => rfl

theorem last0_singleton (a : Nat) : last0 [a] = a := rfl

theorem last0_mem : ∀ (l : List Nat), l ≠ [] → last0 l ∈ l
  | [a], _ => by simp [last0]
  | a :: b :: t, _ => by
      rw [last0_cons_ne a (b :: t) (by simp)]
      exact List.mem_cons_of_mem a (last0_mem (b :: t) (by simp))

theorem last0_append (a b : List Nat) (h : b ≠ []) : last0 (a ++ b) = last0 b := by
  induction a with
  | nil => rfl
  | cons x a ih =>
      rw [List.cons_append, last0_cons_ne x (a ++ b) (by simp [h]), ih]

theorem sorted_le_last0 (l : List Nat) (hs : l.Pairwise (· < ·)) :
    ∀ x ∈ l, x ≤ last0 l := by
  induction l with
  | nil => intro x hx; cases hx
  | cons a t ih =>
      rw [List.pairwise_cons] at hs
      intro x hx
      cases t with
      | nil =>
          rw [List.mem_singleton] at hx
          rw [hx, last0_singleton]
      | cons b t' =>
          rw [last0_cons_ne a (b :: t') (by simp)]
          rcases List.mem_cons.mp hx with hx | hx
          · have hmem : last0 (b :: t') ∈ b :: t' := last0_mem (b :: t') (by simp)
            have := hs.1 _ hmem
            omega
          · exact ih hs.2 x hx

theorem sorted_eq_last0 (l : List Nat) (hs : l.Pairwise (· < ·)) (x : Nat)
    (hx : x ∈ l) (hub : ∀ y ∈ l, y ≤ x) : x = last0 l := by
  have h1 := sorted_le_last0 l hs x hx
  have h2 := hub (last0 l) (last0_mem l (List.ne_nil_of_mem hx))
  omega

/-- The keys of a cell list. -/
def keys (l : List (Nat × Row)) : List Nat := l.map Prod.fst

theorem keys_nil : keys [] = [] := rfl

theorem keys_cons (a : Nat × Row) (t : List (Nat × Row)) :
    keys (a :: t) = a.1 :: keys t := rfl

theorem keys_append (a b : List (Nat × Row)) : keys (a ++ b) = keys a ++ keys b :=
  List.map_append _ a b

theorem length_keys (l : List (Nat × Row)) : (keys l).length = l.length :=
  List.length_map l Prod.fst

theorem keys_ne_nil_iff (l : List (Nat × Row)) : keys l ≠ [] ↔ l ≠ [] := by
  cases l <;> simp [keys]

/-- The number of cells whose key is below `key`: in a sorted cell list,
the index at which `key` sits or would be inserted. -/
def cntBelow (l : List (Nat × Row)) (key : Nat) : Nat :=
  (keys l).countP (fun x => decide (x < key))

theorem cntBelow_le_length (l : List (Nat × Row)) (key : Nat) :
    cntBelow l key ≤ l.length := by
  unfold cntBelow
  calc (keys l).countP _ ≤ (keys l).length := List.countP_le_length _
    _ = l.length := length_keys l

theorem cntBelow_cons_of_lt (a : Nat × Row) (t : List (Nat × Row)) (key : Nat)
    (h : a.1 < key) : cntBelow (a :: t) key = cntBelow t key + 1 := by
  unfold cntBelow
  rw [keys_cons, List.countP_cons_of_pos _ _ (by simpa using h)]

theorem cntBelow_eq_zero (l : List (Nat × Row)) (key : Nat)
    (h : ∀ x ∈ keys l, ¬ x < key) : cntBelow l key = 0 := by
  unfold cntBelow
  exact List.countP_eq_zero.mpr (fun a ha => by simpa using h a ha)

theorem cntBelow_eq_length (l : List (Nat × Row)) (key : Nat)
    (h : ∀ x ∈ keys l, x < key) : cntBelow l key = l.length := by
  unfold cntBelow
  rw [List.countP_eq_length.mpr (fun a ha => by simpa using h a ha), length_keys]

theorem cntBelow_append (a b : List (Nat × Row)) (key : Nat) :
    cntBelow (a ++ b) key = cntBelow a key + cntBelow b key := by
  unfold cntBelow
  rw [keys_append, List.countP_append]

/-- Sorted-list insertion at the level of the scan sequence: the new
cell goes right before the first cell whose key is ≥ the inserted key. -/
def lput (l : List (Nat × Row)) (key : Nat) (v : Row) : List (Nat × Row) :=
  l.take (cntBelow l key) ++ (key, v) :: l.drop (cntBelow l key)

theorem lput_nil (key : Nat) (v : Row) : lput [] key v = [(key, v)] := rfl

theorem lput_ne_nil (l : List (Nat × Row)) (key : Nat) (v : Row) :
    lput l key v ≠ [] := by
  unfold lput
  simp

theorem length_lput (l : List (Nat × Row)) (key : Nat) (v : Row) :
    (lput l key v).length = l.length + 1 := by
  have h := cntBelow_le_length l key
  unfold lput
  rw [List.length_append, List.length_cons, List.length_take, List.length_drop]
  omega

theorem lput_cons_of_lt (a : Nat × Row) (t : List (Nat × Row)) (key : Nat) (v : Row)
    (h : a.1 < key) : lput (a :: t) key v = a :: lput t key v := by
  unfold lput
  rw [cntBelow_cons_of_lt a t key h, List.take_succ_cons, List.drop_succ_cons,
    List.cons_append]

theorem lput_cons_of_ge (a : Nat × Row) (t : List (Nat × Row)) (key : Nat) (v : Row)
    (hs : (keys (a :: t)).Pairwise (· < ·)) (h : ¬ a.1 < key) :
    lput (a :: t) key v = (key, v) :: a :: t := by
  rw [keys_cons, List.pairwise_cons] at hs
  have h0 : cntBelow (a :: t) key = 0 := by
    apply cntBelow_eq_zero
    intro x hx
    rcases List.mem_cons.mp (by rwa [keys_cons] at hx) with hx | hx
    · omega
    · have := hs.1 x hx
      omega
  unfold lput
  rw [h0, List.take_zero, List.drop_zero, List.nil_append]

theorem mem_keys_lput (l : List (Nat × Row)) (key : Nat) (v : Row) (x : Nat) :
    x ∈ keys (lput l key v) ↔ x = key ∨ x ∈ keys l := by
  unfold lput keys
  simp only [List.map_append, List.map_cons, List.map_take, List.map_drop,
    List.mem_append, List.mem_cons]
  constructor
  · rintro (h | h | h)
    · exact Or.inr (List.mem_of_mem_take h)
    · exact Or.inl h
    · exact Or.inr (List.mem_of_mem_drop h)
  · rintro (h | h)
    · exact Or.inr (Or.inl h)
    · have hx : x ∈ (l.map Prod.fst).take (cntBelow l key) ++
          (l.map Prod.fst).drop (cntBelow l key) := by
        rw [List.take_append_drop]
        exact h
      rcases List.mem_append.mp hx with h | h
      · exact Or.inl h
      · exact Or.inr (Or.inr h)

theorem lput_append_right (a b : List (Nat × Row)) (key : Nat) (v : Row)
    (hb : ∀ x ∈ keys b, ¬ x < key) :
    lput (a ++ b) key v = lput a key v ++ b := by
  have hn : cntBelow a key ≤ a.length := cntBelow_le_length a key
  have hc : cntBelow (a ++ b) key = cntBelow a key := by
    rw [cntBelow_append, cntBelow_eq_zero b key hb]
    omega
  unfold lput
  rw [hc, List.take_append_eq_append_take, List.drop_append_eq_append_drop,
    show cntBelow a key - a.length = 0 by omega, List.take_zero, List.drop_zero]
  simp [List.append_assoc]

theorem lput_append_left (a b : List (Nat × Row)) (key : Nat) (v : Row)
    (ha : ∀ x ∈ keys a, x < key) :
    lput (a ++ b) key v = a ++ lput b key v := by
  have hc : cntBelow (a ++ b) key = a.length + cntBelow b key := by
    rw [cntBelow_append, cntBelow_eq_length a key ha]
  unfold lput
  rw [hc, List.take_append_eq_append_take, List.drop_append_eq_append_drop,
    show a.length + cntBelow b key - a.length = cntBelow b key by omega,
    List.take_of_length_le (by omega), List.drop_eq_nil_of_le (by omega)]
  simp [List.append_assoc]

theorem lput_sorted (l : List (Nat × Row)) (key : Nat) (v : Row)
    (hs : (keys l).Pairwise (· < ·)) (hk : key ∉ keys l) :
    (keys (lput l key v)).Pairwise (· < ·) := by
  induction l with
  | nil => simp [lput_nil, keys]
  | cons a t ih =>
      have hs' := hs
      rw [keys_cons, List.pairwise_cons] at hs'
      rw [keys_cons, List.mem_cons] at hk
      by_cases hlt : a.1 < key
      · rw [lput_cons_of_lt a t key v hlt, keys_cons, List.pairwise_cons]
        constructor
        · intro b hb
          rcases (mem_keys_lput t key v b).mp hb with hb | hb
          · omega
          · exact hs'.1 b hb
        · exact ih hs'.2 (fun h => hk (Or.inr h))
      · rw [lput_cons_of_ge a t key v hs hlt, keys_cons, keys_cons,
          List.pairwise_cons]
        constructor
        · intro b hb
          rcases List.mem_cons.mp hb with hb | hb
          · omega
          · have := hs'.1 b hb
            omega
        · exact hs

theorem sorted_findIdx_eq_cntBelow (key : Nat) : ∀ (l : List (Nat × Row)),
    (keys l).Pairwise (· < ·) →
    l.findIdx (fun c => key ≤ c.1) = cntBelow l key := by
  intro l
  induction l with
  | nil => intro _; rfl
  | cons a t ih =>
      intro hs
      have hs' := hs
      rw [keys_cons, List.pairwise_cons] at hs'
      by_cases h : key ≤ a.1
      · rw [List.findIdx_cons]
        have hb : (decide (key ≤ a.1)) = true := by simpa using h
        rw [hb, cond_true]
        symm
        apply cntBelow_eq_zero
        intro x hx
        rcases List.mem_cons.mp (by rwa [keys_cons] at hx) with hx | hx
        · omega
        · have := hs'.1 x hx
          omega
      · rw [List.findIdx_cons]
        have hb : (decide (key ≤ a.1)) = false := by simpa using h
        rw [hb, cond_false, ih hs'.2, cntBelow_cons_of_lt a t key (by omega)]

theorem sorted_dup_iff (key : Nat) : ∀ (l : List (Nat × Row)),
    (keys l).Pairwise (· < ·) →
    (((l.get? (l.findIdx (fun c => key ≤ c.1))).map Prod.fst = some key) ↔
      key ∈ keys l) := by
  intro l
  induction l with
  | nil => intro _; simp [keys]
  | cons a t ih =>
      intro hs
      have hs' := hs
      rw [keys_cons, List.pairwise_cons] at hs'
      by_cases h : key ≤ a.1
      · have hb : (decide (key ≤ a.1)) = true := by simpa using h
        rw [List.findIdx_cons, hb, cond_true]
        show ((a :: t).get? 0).map Prod.fst = some key ↔ _
        rw [List.get?_cons_zero, keys_cons]
        simp only [Option.map_some']
        constructor
        · intro he
          rw [Option.some_inj] at he
          exact he ▸ List.mem_cons_self _ _
        · intro hm
          rcases List.mem_cons.mp hm with hm | hm
          · rw [hm]
          · have := hs'.1 key hm
            omega
      · have hb : (decide (key ≤ a.1)) = false := by simpa using h
        rw [List.findIdx_cons, hb, cond_false]
        show ((a :: t).get? (t.findIdx (fun c => key ≤ c.1) + 1)).map Prod.fst =
            some key ↔ _
        rw [List.get?_cons_succ, ih hs'.2, keys_cons]
        constructor
        · intro hm
          exact List.mem_cons_of_mem _ hm
        · intro hm
          rcases List.mem_cons.mp hm with hm | hm
          · omega
          · exact hm

theorem sorted_get_cntBelow (key : Nat) : ∀ (l : List Nat),
    l.Pairwise (· < ·) → key ∈ l →
    l.get? (l.countP (fun x => decide (x < key))) = some key := by
  intro l
  induction l with
  | nil => intro _ hm; cases hm
  | cons a t ih =>
      intro hs hm
      rw [List.pairwise_cons] at hs
      by_cases he : a = key
      · subst he
        have h0 : t.countP (fun x => decide (x < a)) = 0 :=
          List.countP_eq_zero.mpr (fun x hx => by
            have := hs.1 x hx
            simp
            omega)
        rw [List.countP_cons_of_neg _ _ (by simp), h0, List.get?_cons_zero]
      · rcases List.mem_cons.mp hm with hm | hm
        · exact absurd hm.symm he
        · have hlt : a < key := hs.1 key hm
          rw [List.countP_cons_of_pos _ _ (by simpa using hlt), List.get?_cons_succ]
          exact ih hs.2 hm

/-! ## B+tree search model for claim C6 (spec §3, §4.3)

`table_find`/`leaf_node_find` exist only as declarations in the current
`db.h`: no find operation of any kind is implemented under the sources
(the executable `execute_insert`/`execute_select` in db.c are the flat
slot engine above and contain no search).  The find claim is therefore
settled against a model of the spec's search structure.  Modelled from
the spec: nodes are leaves holding key→row cells sorted by key, or
internal nodes holding (routing key, child) cells plus a rightmost
child, where a cell's routing key is the maximum key in its child's
subtree and the rightmost child holds all larger keys (§3).  The page
indirection (children as page numbers resolved through the pager) is
modelled by direct child subtrees; `L` and `M` stand for
`LEAF_NODE_MAX_CELLS` and the internal node's cell capacity.

The §4.3 insert algorithm is modelled alongside `findPos` for one
purpose only: the spec phrases find-correctness for an absent key as
"verifiable by inserting at that point and re-scanning in order", and
`leaf_node_insert` and the split path are likewise declared in `db.h`
but implemented in the absent node.c.  This model does not stand in for
the `execute_insert` present in db.c:64 (the flat engine above is the
authority for insert behaviour; see the C1 and C3 theorems there). -/

namespace BTree

mutual
/-- Modelled from the spec: a B+tree node — a leaf with (key, row) cells
or an internal node with routing cells and a rightmost child. -/
inductive Node where
  | leaf (cells : List (Nat × Row))
  | internal (cells : Cells) (right : Node)

/-- The cell sequence of an internal node: (routing key, child page)
pairs, in key order. -/
inductive Cells where
  | nil
  | cons (key : Nat) (child : Node) (rest : Cells)
end

mutual
/-- Modelled from the spec: the full scan — walk the leaf level left to
right via a cursor (§4.3 "Full scan"), emitting every leaf cell in
order. -/
def scan : Node → List (Nat × Row)
  | .leaf cells => cells
  | .internal cells right => scanCells cells ++ scan right

def scanCells : Cells → List (Nat × Row)
  | .nil => []
  | .cons _ child rest => scan child ++ scanCells rest
end

/-- The keys of a subtree in scan order. -/
def sKeys (n : Node) : List Nat := keys (scan n)

def Cells.toList : Cells → List (Nat × Node)
  | .nil => []
  | .cons k c rest => (k, c) :: rest.toList

def Cells.ofList : List (Nat × Node) → Cells
  | [] => .nil
  | (k, c) :: rest => .cons k c (ofList rest)

/-- Modelled from the spec: `get_node_max_key` — the maximum key of a
subtree: the last cell key of a leaf, or the maximum of the rightmost
child of an internal node. -/
def maxKey : Node → Nat
  | .leaf cells => last0 (keys cells)
  | .internal _ right => maxKey right

/-- The result of inserting into one node: the node fit, or it split
into a left and a right node (left first in key order). -/
inductive Ins where
  | one (n : Node)
  | two (l : Node) (r : Node)

mutual
/-- Modelled from the spec (§4.3 Insert): descend to the target leaf
(first cell whose routing key is ≥ the target, else the rightmost
child); at the leaf, if the located cell index already holds the key
report a duplicate; otherwise shift cells right and write the new cell,
splitting when the leaf exceeds capacity `L` (left gets
`⌈(count)/2⌉` cells); internal nodes that overflow capacity `M` split
analogously, the median cell's child becoming the left node's rightmost
child and its key the left node's maximum. -/
def insert (L M key : Nat) (v : Row) : Node → Except Unit Ins
  | .leaf cells =>
      let idx := cells.findIdx (fun c => key ≤ c.1)
      if (cells.get? idx).map Prod.fst = some key then
        Except.error ()
      else
        let cells' := cells.take idx ++ (key, v) :: cells.drop idx
        if cells'.length ≤ L then Except.ok (Ins.one (Node.leaf cells'))
        else
          let lc := (cells'.length + 1) / 2
          Except.ok (Ins.two (Node.leaf (cells'.take lc)) (Node.leaf (cells'.drop lc)))
  | .internal cells right =>
      match insertCells L M key v cells right with
      | .error e => Except.error e
      | .ok (cells', right') =>
          let l := cells'.toList
          if h : l.length ≤ M then
            Except.ok (Ins.one (Node.internal cells' right'))
          else
            let j := l.length / 2
            let cell := l.get ⟨j, Nat.div_lt_self (by omega) (by omega)⟩
            Except.ok (Ins.two (Node.internal (Cells.ofList (l.take j)) cell.2)
              (Node.internal (Cells.ofList (l.drop (j + 1))) right'))
termination_by t => sizeOf t

/-- Walk the cells of an internal node to the child that must receive
the key, insert there, and rebuild the cell sequence (splicing in a
split child's two halves; after a rightmost-child split the left half
becomes a new last cell). -/
def insertCells (L M key : Nat) (v : Row) : Cells → Node → Except Unit (Cells × Node)
  | .nil, right =>
      match insert L M key v right with
      | .error e => Except.error e
      | .ok (.one n) => Except.ok (.nil, n)
      | .ok (.two l r) => Except.ok (.cons (maxKey l) l .nil, r)
  | .cons k c rest, right =>
      if key ≤ k then
        match insert L M key v c with
        | .error e => Except.error e
        | .ok (.one n) => Except.ok (.cons k n rest, right)
        | .ok (.two l r) => Except.ok (.cons (maxKey l) l (.cons k r rest), right)
      else
        match insertCells L M key v rest right with
        | .error e => Except.error e
        | .ok (rest', right') => Except.ok (.cons k c rest', right')
termination_by cs right => sizeOf cs + sizeOf right
end

/-- Modelled from the spec: the §4.3 insert on the modelled tree, used
only to state the insertion-point half of find correctness.  A duplicate
key reports `EXECUTE_DUPLICATE_KEY` per §4.3 step 2 / §9 and leaves the
tree untouched; a root split creates a new internal root whose two
children are the old and new nodes (§4.3 step 4).  (The `execute_insert`
present in db.c:64 is the flat engine and behaves differently; it
decides claims C1, C3, C4 and C10 above.) -/
def tree_insert (L M : Nat) (t : Node) (key : Nat) (v : Row) : ExecuteResult × Node :=
  match insert L M key v t with
  | .error _ => (ExecuteResult.EXECUTE_DUPLICATE_KEY, t)
  | .ok (.one n) => (ExecuteResult.EXECUTE_SUCCESS, n)
  | .ok (.two l r) =>
      (ExecuteResult.EXECUTE_SUCCESS, Node.internal (Cells.cons (maxKey l) l Cells.nil) r)

mutual
/-- Modelled from the spec (§4.3 Search): `table_find` — descend from
the root, at an internal node taking the first child whose routing key
is ≥ the target (else the rightmost child); at a leaf, the cell index
where the key sits or would be inserted (`leaf_node_find`).  The cursor
is abstracted as the position in leaf-level scan order: local cell index
plus the sizes of all subtrees left of the target leaf. -/
def findPos (key : Nat) : Node → Nat
  | .leaf cells => cells.findIdx (fun c => key ≤ c.1)
  | .internal cells right => findPosCells key cells right
termination_by t => sizeOf t

def findPosCells (key : Nat) : Cells → Node → Nat
  | .nil, right => findPos key right
  | .cons k c rest, right =>
      if key ≤ k then findPos key c
      else (scan c).length + findPosCells key rest right
termination_by cs right => sizeOf cs + sizeOf right
end

mutual
/-- The structural invariant of a well-formed subtree: leaf cells are
strictly sorted by key; an internal node has well-formed cells, a
well-formed nonempty rightmost child, and a strictly sorted scan. -/
def wfNode : Node → Prop
  | .leaf cells => (cells.map Prod.fst).Pairwise (· < ·)
  | .internal cells right =>
      wfCells cells ∧ wfNode right ∧ scan right ≠ [] ∧
        (sKeys (Node.internal cells right)).Pairwise (· < ·)

/-- Each cell's child is well-formed and nonempty, and the routing key
is the maximum key of the child's subtree (an upper bound that the
subtree attains). -/
def wfCells : Cells → Prop
  | .nil => True
  | .cons k c rest =>
      wfNode c ∧ (∀ x ∈ sKeys c, x ≤ k) ∧ k ∈ sKeys c ∧ wfCells rest
end

/-! ### Structural lemmas about scan, cells and well-formedness -/

/-- The scan of a list of cells (list counterpart of `scanCells`). -/
def scanList (l : List (Nat × Node)) : List (Nat × Row) :=
  (l.map (fun p => scan p.2)).flatten

theorem scanList_nil : scanList [] = [] := rfl

theorem scanList_cons (p : Nat × Node) (l : List (Nat × Node)) :
    scanList (p :: l) = scan p.2 ++ scanList l := rfl

theorem scanList_append (a b : List (Nat × Node)) :
    scanList (a ++ b) = scanList a ++ scanList b := by
  unfold scanList
  rw [List.map_append, List.flatten_append]

theorem scanCells_eq : ∀ cs : Cells, scanCells cs = scanList cs.toList
  | .nil => rfl
  | .cons k c rest => by
      simp only [scanCells, Cells.toList, scanList_cons, scanCells_eq rest]

theorem toList_ofList : ∀ l : List (Nat × Node), (Cells.ofList l).toList = l
  | [] => rfl
  | (k, c) :: rest => by
      simp only [Cells.ofList, Cells.toList, toList_ofList rest]

theorem sKeys_eq (n : Node) : sKeys n = keys (scan n) := rfl

theorem sKeys_leaf (cells : List (Nat × Row)) :
    sKeys (Node.leaf cells) = keys cells := by
  simp [sKeys, scan]

theorem sKeys_internal (cs : Cells) (right : Node) :
    sKeys (Node.internal cs right) = keys (scanCells cs ++ scan right) := by
  simp [sKeys, scan]

theorem wfCells_iff : ∀ cs : Cells, wfCells cs ↔
    ∀ p ∈ cs.toList, wfNode p.2 ∧ (∀ x ∈ sKeys p.2, x ≤ p.1) ∧ p.1 ∈ sKeys p.2
  | .nil => by simp [wfCells, Cells.toList]
  | .cons k c rest => by
      simp only [wfCells, Cells.toList]
      rw [wfCells_iff rest]
      constructor
      · rintro ⟨h1, h2, h3, h4⟩ p hp
        rcases List.mem_cons.mp hp with hp | hp
        · subst hp
          exact ⟨h1, h2, h3⟩
        · exact h4 p hp
      · intro h
        have hkc := h (k, c) (List.mem_cons_self _ _)
        exact ⟨hkc.1, hkc.2.1, hkc.2.2, fun p hp => h p (List.mem_cons_of_mem _ hp)⟩

theorem wf_sorted : ∀ n : Node, wfNode n → (sKeys n).Pairwise (· < ·)
  | .leaf cells, h => by
      rw [sKeys_leaf]
      exact h
  | .internal cs right, h => h.2.2.2

theorem maxKey_spec : ∀ n : Node, wfNode n → scan n ≠ [] → maxKey n = last0 (sKeys n)
  | .leaf cells, _, _ => by
      simp [maxKey, sKeys_leaf]
  | .internal cs right, h, _ => by
      simp only [maxKey]
      rw [maxKey_spec right h.2.1 h.2.2.1, sKeys_internal, keys_append,
        last0_append _ _ ((keys_ne_nil_iff (scan right)).mpr h.2.2.1)]
      rfl

theorem sKeys_ne_nil (n : Node) (h : scan n ≠ []) : sKeys n ≠ [] := by
  rw [sKeys_eq, keys_ne_nil_iff]
  exact h

theorem le_maxKey (n : Node) (hw : wfNode n) (hne : scan n ≠ []) :
    ∀ x ∈ sKeys n, x ≤ maxKey n := by
  rw [maxKey_spec n hw hne]
  exact sorted_le_last0 _ (wf_sorted n hw)

theorem maxKey_mem (n : Node) (hw : wfNode n) (hne : scan n ≠ []) :
    maxKey n ∈ sKeys n := by
  rw [maxKey_spec n hw hne]
  exact last0_mem _ (sKeys_ne_nil n hne)

theorem scan_ne_nil_of_sKeys_mem (n : Node) (x : Nat) (h : x ∈ sKeys n) :
    scan n ≠ [] := by
  intro hc
  rw [sKeys_eq, hc] at h
  cases h

theorem key_lt_of_routing (key k : Nat) (c : Node) (hk : key ≤ k)
    (hnotin : key ∉ sKeys c) (hmem : k ∈ sKeys c) : key < k := by
  rcases Nat.eq_or_lt_of_le hk with h | h
  · subst h
    exact absurd hmem hnotin
  · exact h

/-! ### Correctness of insert: refinement to sorted-list insertion -/

/-- What a successful or failed `insert` guarantees with respect to the
node's scan sequence `orig`. -/
def InsOk (orig : List (Nat × Row)) (key : Nat) (v : Row) : Except Unit Ins → Prop
  | .error _ => key ∈ keys orig
  | .ok (.one m) => key ∉ keys orig ∧ wfNode m ∧ scan m = lput orig key v
  | .ok (.two l r) => key ∉ keys orig ∧ wfNode l ∧ wfNode r ∧ scan l ≠ [] ∧
      scan r ≠ [] ∧ scan l ++ scan r = lput orig key v

/-- What `insertCells` guarantees with respect to the concatenated scan
`orig` of the cells and the rightmost child. -/
def CellsOk (orig : List (Nat × Row)) (key : Nat) (v : Row) :
    Except Unit (Cells × Node) → Prop
  | .error _ => key ∈ keys orig
  | .ok (cs', right') => key ∉ keys orig ∧ wfCells cs' ∧ wfNode right' ∧
      scan right' ≠ [] ∧ scanCells cs' ++ scan right' = lput orig key v

mutual
theorem insert_spec (L M key : Nat) (v : Row) (hL : 1 ≤ L) :
    ∀ n : Node, wfNode n → InsOk (scan n) key v (insert L M key v n)
  | .leaf cells, hw => by
      have hs : (keys cells).Pairwise (· < ·) := by
        rw [← sKeys_leaf]
        exact wf_sorted _ hw
      have hidx := sorted_findIdx_eq_cntBelow key cells hs
      have hdiff := sorted_dup_iff key cells hs
      have hscan : scan (Node.leaf cells) = cells := by simp [scan]
      simp only [insert]
      split
      · -- duplicate key at the located index
        next hdup =>
          simp only [InsOk, hscan]
          exact hdiff.mp hdup
      · next hdup =>
          have hknotin : key ∉ keys cells := fun hmem => hdup (hdiff.mpr hmem)
          have hc' : cells.take (cells.findIdx fun c => key ≤ c.1) ++
              (key, v) :: cells.drop (cells.findIdx fun c => key ≤ c.1) =
              lput cells key v := by
            rw [hidx]
            rfl
          rw [hc']
          have hlen := length_lput cells key v
          split
          · -- the leaf has room
            next hfit =>
              simp only [InsOk, hscan]
              refine ⟨hknotin, ?_, by simp [scan]⟩
              show (keys (lput cells key v)).Pairwise (· < ·)
              exact lput_sorted cells key v hs hknotin
          · -- leaf split
            next hfull =>
              have h2 : 2 ≤ (lput cells key v).length := by omega
              simp only [InsOk, hscan]
              have hsorted' := lput_sorted cells key v hs hknotin
              refine ⟨hknotin, ?_, ?_, ?_, ?_, List.take_append_drop _ _⟩
              · show (keys ((lput cells key v).take _)).Pairwise (· < ·)
                unfold keys
                rw [List.map_take]
                exact hsorted'.sublist (List.take_sublist _ _)
              · show (keys ((lput cells key v).drop _)).Pairwise (· < ·)
                unfold keys
                rw [List.map_drop]
                exact hsorted'.sublist (List.drop_sublist _ _)
              · intro hnil
                simp only [scan] at hnil
                rcases List.take_eq_nil_iff.mp hnil with h | h
                · omega
                · exact lput_ne_nil cells key v h
              · intro hnil
                simp only [scan] at hnil
                rw [List.drop_eq_nil_iff] at hnil
                omega
  | .internal cs right, hw => by
      have hwc : wfCells cs := hw.1
      have hwr : wfNode right := hw.2.1
      have hner : scan right ≠ [] := hw.2.2.1
      have hsort : (keys (scanCells cs ++ scan right)).Pairwise (· < ·) := by
        rw [← sKeys_internal]
        exact hw.2.2.2
      have hcells := insertCells_spec L M key v hL cs right hwc hwr hner hsort
      have hscan : scan (Node.internal cs right) = scanCells cs ++ scan right := by
        simp [scan]
      simp only [insert]
      split
      · -- duplicate propagated up
        next e heq =>
          rw [heq] at hcells
          simp only [CellsOk] at hcells
          simp only [InsOk, hscan]
          exact hcells
      · next cs' right' heq =>
          rw [heq] at hcells
          simp only [CellsOk] at hcells
          obtain ⟨hnk, hwc', hwr', hner', heqscan⟩ := hcells
          split
          · -- the internal node has room
            next hfit =>
              simp only [InsOk, hscan]
              refine ⟨hnk, ?_, ?_⟩
              · show wfCells cs' ∧ wfNode right' ∧ scan right' ≠ [] ∧
                  (sKeys (Node.internal cs' right')).Pairwise (· < ·)
                refine ⟨hwc', hwr', hner', ?_⟩
                rw [sKeys_internal, heqscan]
                exact lput_sorted _ key v hsort hnk
              · simp only [scan]
                exact heqscan
          · -- internal node split
            next hfull =>
              simp only [InsOk, hscan]
              set l := cs'.toList with hl
              have hj : l.length / 2 < l.length :=
                Nat.div_lt_self (by omega) (by omega)
              set j := l.length / 2 with hjdef
              have hdrop : l.drop j = l.get ⟨j, hj⟩ :: l.drop (j + 1) := by
                rw [List.get_eq_getElem]
                exact List.drop_eq_getElem_cons hj
              have hldec : l = l.take j ++ l.get ⟨j, hj⟩ :: l.drop (j + 1) := by
                rw [← hdrop, List.take_append_drop]
              have hsplit : scanCells cs' =
                  scanList (l.take j) ++ scan (l.get ⟨j, hj⟩).2 ++
                    scanList (l.drop (j + 1)) := by
                rw [scanCells_eq, ← hl]
                conv_lhs => rw [hldec]
                rw [scanList_append, scanList_cons, List.append_assoc]
              have hcellprops := (wfCells_iff cs').mp hwc'
              have hcell := hcellprops (l.get ⟨j, hj⟩) (by rw [← hl]; exact List.get_mem l j hj)
              have hcne : scan (l.get ⟨j, hj⟩).2 ≠ [] :=
                scan_ne_nil_of_sKeys_mem _ _ hcell.2.2
              have hlsorted : (keys (lput (scanCells cs ++ scan right) key v)).Pairwise (· < ·) :=
                lput_sorted _ key v hsort hnk
              have htotal : (scanList (l.take j) ++ scan (l.get ⟨j, hj⟩).2) ++
                  (scanList (l.drop (j + 1)) ++ scan right') =
                  lput (scanCells cs ++ scan right) key v := by
                rw [← heqscan, hsplit]
                simp [List.append_assoc]
              have hsubL : List.Sublist
                  (scanList (l.take j) ++ scan (l.get ⟨j, hj⟩).2)
                  (lput (scanCells cs ++ scan right) key v) := by
                rw [← htotal]
                exact List.sublist_append_left _ _
              have hsubR : List.Sublist
                  (scanList (l.drop (j + 1)) ++ scan right')
                  (lput (scanCells cs ++ scan right) key v) := by
                rw [← htotal]
                exact List.sublist_append_right _ _
              have hscanL : scan (Node.internal (Cells.ofList (l.take j))
                  (l.get ⟨j, hj⟩).2) =
                  scanList (l.take j) ++ scan (l.get ⟨j, hj⟩).2 := by
                simp only [scan]
                rw [scanCells_eq, toList_ofList]
              have hscanR : scan (Node.internal (Cells.ofList (l.drop (j + 1))) right') =
                  scanList (l.drop (j + 1)) ++ scan right' := by
                simp only [scan]
                rw [scanCells_eq, toList_ofList]
              refine ⟨hnk, ?_, ?_, ?_, ?_, ?_⟩
              · -- left split node well-formed
                show wfCells (Cells.ofList (l.take j)) ∧ wfNode (l.get ⟨j, hj⟩).2 ∧
                  scan (l.get ⟨j, hj⟩).2 ≠ [] ∧
                  (sKeys (Node.internal (Cells.ofList (l.take j)) (l.get ⟨j, hj⟩).2)).Pairwise (· < ·)
                refine ⟨?_, hcell.1, hcne, ?_⟩
                · rw [wfCells_iff, toList_ofList]
                  intro p hp
                  exact hcellprops p (by rw [← hl]; exact List.mem_of_mem_take hp)
                · rw [sKeys_eq, hscanL]
                  unfold keys
                  exact hlsorted.sublist (hsubL.map Prod.fst)
              · -- right split node well-formed
                show wfCells (Cells.ofList (l.drop (j + 1))) ∧ wfNode right' ∧
                  scan right' ≠ [] ∧
                  (sKeys (Node.internal (Cells.ofList (l.drop (j + 1))) right')).Pairwise (· < ·)
                refine ⟨?_, hwr', hner', ?_⟩
                · rw [wfCells_iff, toList_ofList]
                  intro p hp
                  exact hcellprops p (by rw [← hl]; exact List.mem_of_mem_drop hp)
                · rw [sKeys_eq, hscanR]
                  unfold keys
                  exact hlsorted.sublist (hsubR.map Prod.fst)
              · rw [hscanL]
                intro hnil
                rw [List.append_eq_nil] at hnil
                exact hcne hnil.2
              · rw [hscanR]
                intro hnil
                rw [List.append_eq_nil] at hnil
                exact hner' hnil.2
              · rw [hscanL, hscanR, htotal]
termination_by n _ => sizeOf n

theorem insertCells_spec (L M key : Nat) (v : Row) (hL : 1 ≤ L) :
    ∀ (cs : Cells) (right : Node), wfCells cs → wfNode right → scan right ≠ [] →
      (keys (scanCells cs ++ scan right)).Pairwise (· < ·) →
      CellsOk (scanCells cs ++ scan right) key v (insertCells L M key v cs right)
  | .nil, right, _, hwr, hner, _ => by
      have hins := insert_spec L M key v hL right hwr
      have hnilscan : scanCells Cells.nil = ([] : List (Nat × Row)) := by
        simp [scanCells]
      simp only [insertCells]
      split
      · next e heq =>
          rw [heq] at hins
          simp only [InsOk] at hins
          simp only [CellsOk, hnilscan, List.nil_append]
          exact hins
      · next n heq =>
          rw [heq] at hins
          simp only [InsOk] at hins
          simp only [CellsOk, hnilscan, List.nil_append]
          refine ⟨hins.1, by simp [wfCells], hins.2.1, ?_, ?_⟩
          · rw [hins.2.2]
            exact lput_ne_nil _ key v
          · exact hins.2.2
      · next lf rt heq =>
          rw [heq] at hins
          simp only [InsOk] at hins
          obtain ⟨h1, hwl, hwrt, hnel, hnert, hlr⟩ := hins
          simp only [CellsOk, hnilscan, List.nil_append]
          refine ⟨h1, ?_, hwrt, hnert, ?_⟩
          · show wfNode lf ∧ (∀ x ∈ sKeys lf, x ≤ maxKey lf) ∧
              maxKey lf ∈ sKeys lf ∧ wfCells Cells.nil
            exact ⟨hwl, le_maxKey lf hwl hnel, maxKey_mem lf hwl hnel, by simp [wfCells]⟩
          · simp only [scanCells, List.append_nil]
            exact hlr
  | .cons k c rest, right, hwc, hwr, hner, hsort => by
      have hwc1 : wfNode c := hwc.1
      have hwc2 : ∀ x ∈ sKeys c, x ≤ k := hwc.2.1
      have hwc3 : k ∈ sKeys c := hwc.2.2.1
      have hwc4 : wfCells rest := hwc.2.2.2
      have horig : scanCells (Cells.cons k c rest) ++ scan right =
          scan c ++ (scanCells rest ++ scan right) := by
        simp [scanCells, List.append_assoc]
      rw [horig] at hsort ⊢
      rw [keys_append, List.pairwise_append] at hsort
      obtain ⟨hsc, hsR, hcross⟩ := hsort
      have hgt : ∀ y ∈ keys (scanCells rest ++ scan right), k < y :=
        fun y hy => hcross k hwc3 y hy
      simp only [insertCells]
      split
      · -- key ≤ k: descend into this cell's child
        next hk =>
          have hins := insert_spec L M key v hL c hwc1
          split
          · next e heq =>
              rw [heq] at hins
              simp only [InsOk] at hins
              simp only [CellsOk]
              rw [keys_append, List.mem_append]
              exact Or.inl hins
          · next n heq =>
              rw [heq] at hins
              simp only [InsOk] at hins
              obtain ⟨h1, hwn, hscn⟩ := hins
              have hklt : key < k := key_lt_of_routing key k c hk h1 hwc3
              have hnotR : key ∉ keys (scanCells rest ++ scan right) := by
                intro hmem
                have := hgt key hmem
                omega
              simp only [CellsOk]
              refine ⟨?_, ?_, hwr, hner, ?_⟩
              · rw [keys_append, List.mem_append]
                rintro (h | h)
                · exact h1 h
                · exact hnotR h
              · show wfNode n ∧ (∀ x ∈ sKeys n, x ≤ k) ∧ k ∈ sKeys n ∧ wfCells rest
                refine ⟨hwn, ?_, ?_, hwc4⟩
                · intro x hx
                  rw [sKeys_eq, hscn] at hx
                  rcases (mem_keys_lput _ key v x).mp hx with hx | hx
                  · omega
                  · exact hwc2 x hx
                · rw [sKeys_eq, hscn]
                  exact (mem_keys_lput _ key v k).mpr (Or.inr hwc3)
              · have hstep : scanCells (Cells.cons k n rest) ++ scan right =
                    scan n ++ (scanCells rest ++ scan right) := by
                  simp [scanCells, List.append_assoc]
                rw [hstep, hscn,
                  lput_append_right (scan c) (scanCells rest ++ scan right) key v
                    (fun x hx => by have := hgt x hx; omega)]
          · next lf rt heq =>
              rw [heq] at hins
              simp only [InsOk] at hins
              obtain ⟨h1, hwl, hwrt, hnel, hnert, hlr⟩ := hins
              have hklt : key < k := key_lt_of_routing key k c hk h1 hwc3
              have hnotR : key ∉ keys (scanCells rest ++ scan right) := by
                intro hmem
                have := hgt key hmem
                omega
              have hcomb_sorted : (keys (scan lf ++ scan rt)).Pairwise (· < ·) := by
                rw [hlr]
                exact lput_sorted _ key v hsc h1
              have hkmem : k ∈ keys (scan lf ++ scan rt) := by
                rw [hlr]
                exact (mem_keys_lput _ key v k).mpr (Or.inr hwc3)
              have hub : ∀ y ∈ keys (scan lf ++ scan rt), y ≤ k := by
                rw [hlr]
                intro y hy
                rcases (mem_keys_lput _ key v y).mp hy with hy | hy
                · omega
                · exact hwc2 y hy
              have hklast := sorted_eq_last0 _ hcomb_sorted k hkmem hub
              rw [keys_append,
                last0_append _ _ ((keys_ne_nil_iff (scan rt)).mpr hnert)] at hklast
              have hkrt : k ∈ sKeys rt := by
                rw [sKeys_eq, hklast]
                exact last0_mem _ ((keys_ne_nil_iff (scan rt)).mpr hnert)
              simp only [CellsOk]
              refine ⟨?_, ?_, hwr, hner, ?_⟩
              · rw [keys_append, List.mem_append]
                rintro (h | h)
                · exact h1 h
                · exact hnotR h
              · show wfNode lf ∧ (∀ x ∈ sKeys lf, x ≤ maxKey lf) ∧
                  maxKey lf ∈ sKeys lf ∧
                  (wfNode rt ∧ (∀ x ∈ sKeys rt, x ≤ k) ∧ k ∈ sKeys rt ∧ wfCells rest)
                refine ⟨hwl, le_maxKey lf hwl hnel, maxKey_mem lf hwl hnel,
                  hwrt, ?_, hkrt, hwc4⟩
                intro x hx
                apply hub
                rw [keys_append, List.mem_append]
                right
                rw [sKeys_eq] at hx
                exact hx
              · have hstep : scanCells (Cells.cons (maxKey lf) lf (Cells.cons k rt rest)) ++
                    scan right =
                    (scan lf ++ scan rt) ++ (scanCells rest ++ scan right) := by
                  simp [scanCells, List.append_assoc]
                rw [hstep, hlr,
                  lput_append_right (scan c) (scanCells rest ++ scan right) key v
                    (fun x hx => by have := hgt x hx; omega)]
      · -- k < key: skip this cell
        next hk =>
          have hrec := insertCells_spec L M key v hL rest right hwc4 hwr hner hsR
          have hlt : ∀ x ∈ keys (scan c), x < key := by
            intro x hx
            have := hwc2 x (by rwa [sKeys_eq])
            omega
          split
          · next e heq =>
              rw [heq] at hrec
              simp only [CellsOk] at hrec
              simp only [CellsOk]
              rw [keys_append, List.mem_append]
              exact Or.inr hrec
          · next rest' right' heq =>
              rw [heq] at hrec
              simp only [CellsOk] at hrec
              obtain ⟨h1, hwrest', hwright', hneright', heqscan⟩ := hrec
              simp only [CellsOk]
              refine ⟨?_, ?_, hwright', hneright', ?_⟩
              · rw [keys_append, List.mem_append]
                rintro (h | h)
                · have := hlt key h
                  omega
                · exact h1 h
              · show wfNode c ∧ (∀ x ∈ sKeys c, x ≤ k) ∧ k ∈ sKeys c ∧ wfCells rest'
                exact ⟨hwc1, hwc2, hwc3, hwrest'⟩
              · have hstep : scanCells (Cells.cons k c rest') ++ scan right' =
                    scan c ++ (scanCells rest' ++ scan right') := by
                  simp [scanCells, List.append_assoc]
                rw [hstep, heqscan,
                  lput_append_left (scan c) (scanCells rest ++ scan right) key v hlt]
termination_by cs right _ _ _ _ => sizeOf cs + sizeOf right
end

/-! ### Consequences of the insert refinement (used by find correctness) -/

theorem tree_insert_spec (L M : Nat) (hL : 1 ≤ L) (t : Node) (hw : wfNode t)
    (key : Nat) (v : Row) :
    wfNode (tree_insert L M t key v).2 ∧
      ((tree_insert L M t key v).1 = ExecuteResult.EXECUTE_SUCCESS ↔ key ∉ sKeys t) ∧
      ((tree_insert L M t key v).1 = ExecuteResult.EXECUTE_SUCCESS →
        scan (tree_insert L M t key v).2 = lput (scan t) key v) ∧
      ((tree_insert L M t key v).1 ≠ ExecuteResult.EXECUTE_SUCCESS →
        (tree_insert L M t key v).1 = ExecuteResult.EXECUTE_DUPLICATE_KEY ∧
          (tree_insert L M t key v).2 = t) := by
  have hins := insert_spec L M key v hL t hw
  unfold tree_insert
  cases hres : insert L M key v t with
  | error e =>
      rw [hres] at hins
      simp only [InsOk] at hins
      refine ⟨hw, ?_, ?_, fun _ => ⟨rfl, rfl⟩⟩
      · simp only [sKeys_eq]
        constructor
        · intro h
          exact absurd h (by simp)
        · intro h
          exact absurd hins h
      · intro h
        exact absurd h (by simp)
  | ok ins =>
      cases ins with
      | one m =>
          rw [hres] at hins
          simp only [InsOk] at hins
          refine ⟨hins.2.1, ?_, fun _ => hins.2.2, fun h => absurd rfl h⟩
          simp only [sKeys_eq]
          exact ⟨fun _ => hins.1, fun _ => trivial⟩
      | two lf rt =>
          rw [hres] at hins
          simp only [InsOk] at hins
          obtain ⟨h1, hwl, hwrt, hnel, hnert, hlr⟩ := hins
          have hscanroot : scan (Node.internal (Cells.cons (maxKey lf) lf Cells.nil) rt) =
              scan lf ++ scan rt := by
            simp [scan, scanCells]
          refine ⟨?_, ?_, fun _ => ?_, fun h => absurd rfl h⟩
          · show wfCells (Cells.cons (maxKey lf) lf Cells.nil) ∧ wfNode rt ∧
              scan rt ≠ [] ∧
              (sKeys (Node.internal (Cells.cons (maxKey lf) lf Cells.nil) rt)).Pairwise (· < ·)
            refine ⟨?_, hwrt, hnert, ?_⟩
            · show wfNode lf ∧ (∀ x ∈ sKeys lf, x ≤ maxKey lf) ∧
                maxKey lf ∈ sKeys lf ∧ wfCells Cells.nil
              exact ⟨hwl, le_maxKey lf hwl hnel, maxKey_mem lf hwl hnel, by simp [wfCells]⟩
            · rw [sKeys_eq, hscanroot, hlr]
              exact lput_sorted _ key v (wf_sorted t hw) h1
          · simp only [sKeys_eq]
            exact ⟨fun _ => h1, fun _ => trivial⟩
          · rw [hscanroot, hlr]

/-! ### Find correctness -/

mutual
theorem findPos_spec (key : Nat) :
    ∀ n : Node, wfNode n →
      findPos key n = (sKeys n).countP (fun x => decide (x < key))
  | .leaf cells, hw => by
      have hs : (keys cells).Pairwise (· < ·) := by
        rw [← sKeys_leaf]
        exact wf_sorted _ hw
      simp only [findPos, sKeys_leaf]
      rw [sorted_findIdx_eq_cntBelow key cells hs]
      rfl
  | .internal cs right, hw => by
      have hsort : (keys (scanCells cs ++ scan right)).Pairwise (· < ·) := by
        rw [← sKeys_internal]
        exact hw.2.2.2
      simp only [findPos]
      rw [findPosCells_spec key cs right hw.1 hw.2.1 hsort, sKeys_internal]
termination_by n _ => sizeOf n

theorem findPosCells_spec (key : Nat) :
    ∀ (cs : Cells) (right : Node), wfCells cs → wfNode right →
      (keys (scanCells cs ++ scan right)).Pairwise (· < ·) →
      findPosCells key cs right =
        (keys (scanCells cs ++ scan right)).countP (fun x => decide (x < key))
  | .nil, right, _, hwr, _ => by
      have h : scanCells Cells.nil = ([] : List (Nat × Row)) := by simp [scanCells]
      rw [h, List.nil_append]
      simp only [findPosCells]
      rw [findPos_spec key right hwr]
      rfl
  | .cons k c rest, right, hwc, hwr, hsort => by
      have hwc1 : wfNode c := hwc.1
      have hwc2 : ∀ x ∈ sKeys c, x ≤ k := hwc.2.1
      have hwc3 : k ∈ sKeys c := hwc.2.2.1
      have hwc4 : wfCells rest := hwc.2.2.2
      have horig : scanCells (Cells.cons k c rest) ++ scan right =
          scan c ++ (scanCells rest ++ scan right) := by
        simp [scanCells, List.append_assoc]
      rw [horig] at hsort ⊢
      rw [keys_append, List.pairwise_append] at hsort
      obtain ⟨hsc, hsR, hcross⟩ := hsort
      have hgt : ∀ y ∈ keys (scanCells rest ++ scan right), k < y :=
        fun y hy => hcross k hwc3 y hy
      rw [keys_append, List.countP_append]
      simp only [findPosCells]
      split
      · next hk =>
          have hz : (keys (scanCells rest ++ scan right)).countP
              (fun x => decide (x < key)) = 0 :=
            List.countP_eq_zero.mpr (fun y hy => by
              have := hgt y hy
              simp
              omega)
          rw [hz, findPos_spec key c hwc1]
          simp [sKeys_eq]
      · next hk =>
          have hfull : (keys (scan c)).countP (fun x => decide (x < key)) =
              (keys (scan c)).length :=
            List.countP_eq_length.mpr (fun y hy => by
              have := hwc2 y (by rwa [sKeys_eq])
              simp
              omega)
          rw [findPosCells_spec key rest right hwc4 hwr hsR, hfull, length_keys]
termination_by cs right _ _ _ => sizeOf cs + sizeOf right
end

/-- C6: for a well-formed table, `find` positions the cursor exactly at
the cell holding an inserted key; for an absent key it returns the index
at which the key would be inserted to preserve sorted order — the number
of smaller keys — and inserting there (via `tree_insert`) places the new
cell at exactly that position of the scan. -/
theorem C6_find_correctness (t : Node) (hw : wfNode t) (key : Nat) :
    (key ∈ sKeys t → (sKeys t).get? (findPos key t) = some key) ∧
      (key ∉ sKeys t →
        findPos key t = (sKeys t).countP (fun x => decide (x < key)) ∧
          ∀ (L M : Nat) (v : Row), 1 ≤ L →
            scan (tree_insert L M t key v).2 =
              (scan t).take (findPos key t) ++
                (key, v) :: (scan t).drop (findPos key t)) := by
  have hpos := findPos_spec key t hw
  constructor
  · intro hmem
    rw [hpos]
    exact sorted_get_cntBelow key (sKeys t) (wf_sorted t hw) hmem
  · intro hnot
    refine ⟨hpos, fun L M v hL => ?_⟩
    have hspec := tree_insert_spec L M hL t hw key v
    have hsucc : (tree_insert L M t key v).1 = ExecuteResult.EXECUTE_SUCCESS :=
      hspec.2.1.mpr hnot
    rw [hspec.2.2.1 hsucc]
    unfold lput
    rw [hpos]
    rfl

theorem C6_find_correctness_witness :
    ((7 : Nat) ∈ sKeys (Node.leaf [(7, sample_row)]) ∧
        (sKeys (Node.leaf [(7, sample_row)])).get?
          (findPos 7 (Node.leaf [(7, sample_row)])) = some 7) ∧
      ((3 : Nat) ∉ sKeys (Node.leaf [(7, sample_row)]) ∧ (1 : Nat) ≤ 2 ∧
        scan (tree_insert 2 3 (Node.leaf [(7, sample_row)]) 3 sample_row).2 =
          (scan (Node.leaf [(7, sample_row)])).take
              (findPos 3 (Node.leaf [(7, sample_row)])) ++
            (3, sample_row) ::
              (scan (Node.leaf [(7, sample_row)])).drop
                (findPos 3 (Node.leaf [(7, sample_row)]))) := by
  have hw : wfNode (Node.leaf [(7, sample_row)]) := by
    simp [wfNode, keys]
  have hmem : (7 : Nat) ∈ sKeys (Node.leaf [(7, sample_row)]) := by
    rw [sKeys_leaf]
    simp [keys]
  have hnot : (3 : Nat) ∉ sKeys (Node.leaf [(7, sample_row)]) := by
    rw [sKeys_leaf]
    simp [keys]
  refine ⟨⟨hmem, (C6_find_correctness (Node.leaf [(7, sample_row)]) hw 7).1 hmem⟩,
    hnot, by decide, ?_⟩
  exact ((C6_find_correctness (Node.leaf [(7, sample_row)]) hw 3).2 hnot).2 2 3
    sample_row (by decide)

end BTree

end SimpleSQL
